import Mathlib

/-!
Shallow embedding of the vowel/consonant balanced-words DPDA defined in
src/vc_balanced.py, together with proofs about its run and trace behavior.
The automaton has control states q0 (scanning for the first letter of a
word), q1 (reading the rest of a word) and q2 (the final state reached on
the end marker), stack symbols S (bottom marker), V (vowel credit) and
C (consonant credit), and accepts by empty stack after the whole input,
ending in the marker character, has been consumed.
-/

namespace VcBalanced

/-- Control states of the DPDA from the source: q0 checks the first letter
of a word, q1 reads until the end of the word, q2 is the state entered on
the end marker. -/
inductive St where
  | q0
  | q1
  | q2
deriving DecidableEq, Repr

/-- Stack symbols of the DPDA: S is the bottom marker, V records one more
vowel-starting word, C records one more consonant-starting word. -/
inductive StackSym where
  | S
  | V
  | C
deriving DecidableEq, Repr

/-- The five vowel input characters, as enumerated in the transition table. -/
def vowels : List Char := ['a', 'e', 'i', 'o', 'u']

/-- The twenty-one consonant input characters, as enumerated in the
transition table. -/
def consonants : List Char :=
  ['b', 'c', 'd', 'f', 'g', 'h', 'j', 'k', 'l', 'm', 'n', 'p', 'q', 'r',
   's', 't', 'v', 'w', 'x', 'y', 'z']

/-- The transition table of the DPDA. Entry for a state, input character
and stack top gives the next state and the string replacing the stack top
(head of the list is the new top). The source writes one identical entry
per vowel and one per consonant; here the identical rows are grouped by
membership in the vowel and consonant lists. The state q2 has no outgoing
transitions. -/
def transitions : St → Char → StackSym → Option (St × List StackSym)
  | .q0, a, t =>
    if a = '!' then
      some (match t with
        | .S => (.q2, [])
        | .V => (.q2, [.V])
        | .C => (.q2, [.C]))
    else if a = ' ' then
      some (.q0, [t])
    else if a ∈ vowels then
      some (match t with
        | .S => (.q1, [.V, .S])
        | .V => (.q1, [.V, .V])
        | .C => (.q1, []))
    else if a ∈ consonants then
      some (match t with
        | .S => (.q1, [.C, .S])
        | .V => (.q1, [])
        | .C => (.q1, [.C, .C]))
    else none
  | .q1, a, t =>
    if a = '!' then
      some (match t with
        | .S => (.q2, [])
        | .V => (.q2, [.V])
        | .C => (.q2, [.C]))
    else if a = ' ' then
      some (.q0, [t])
    else if a ∈ vowels ∨ a ∈ consonants then
      some (.q1, [t])
    else none
  | .q2, _, _ => none

/-- The initial state of the DPDA. -/
def initial_state : St := .q0

/-- The initial stack symbol of the DPDA. -/
def initial_stack_symbol : StackSym := .S

/-- The set of final states of the DPDA (acceptance itself is by empty
stack). -/
def final_states : List St := [.q2]

/-- A configuration of a run: current state, remaining unread input, and
the stack with its top at the head of the list. -/
structure Config where
  state : St
  remaining : List Char
  stack : List StackSym
deriving DecidableEq, Repr

/-- One step of the simulator on a state and stack reading one character:
look up the transition for the stack top and replace the top by the
returned string. Returns none when the stack is empty or no transition is
defined. -/
def stepRS (q : St) (stk : List StackSym) (a : Char) :
    Option (St × List StackSym) :=
  match stk with
  | [] => none
  | t :: below => (transitions q a t).map (fun p => (p.1, p.2 ++ below))

/-- One step of the simulator on a full configuration: consume the next
input character and update state and stack. -/
def stepConfig (cfg : Config) : Option Config :=
  match cfg.remaining with
  | [] => none
  | a :: rest =>
    (stepRS cfg.state cfg.stack a).map (fun p => ⟨p.1, rest, p.2⟩)

/-- Run the DPDA from a state and stack over an input, one character per
step, mirroring read_input of the library: the final state and stack, or
none when the automaton gets stuck. -/
def runAux (q : St) (stk : List StackSym) : List Char → Option (St × List StackSym)
  | [] => some (q, stk)
  | a :: rest =>
    match stepRS q stk a with
    | none => none
    | some p => runAux p.1 p.2 rest

/-- Verdict of the DPDA on an input, mirroring accepts_input with the
empty stack acceptance mode of the source: run from q0 with stack [S] and
accept exactly when the run finishes with an empty stack. -/
def accepts_input (input : List Char) : Bool :=
  match runAux initial_state [initial_stack_symbol] input with
  | some p => p.2.isEmpty
  | none => false

/-- The configurations produced after the initial one by the stepwise
reader, together with a flag recording whether the iteration ended in an
exception (stuck step, or nonempty stack once the input is exhausted). -/
def traceAux (q : St) (stk : List StackSym) : List Char → List Config × Bool
  | [] => ([], !stk.isEmpty)
  | a :: rest =>
    match stepRS q stk a with
    | none => ([], true)
    | some p =>
      let rec_tail := traceAux p.1 p.2 rest
      (⟨p.1, rest, p.2⟩ :: rec_tail.1, rec_tail.2)

/-- The full stepwise trace of an input, mirroring read_input_stepwise:
the initial configuration followed by one configuration per consumed
character, plus the exception flag. -/
def traceList (input : List Char) : List Config × Bool :=
  let p := traceAux initial_state [initial_stack_symbol] input
  (⟨initial_state, input, [initial_stack_symbol]⟩ :: p.1, p.2)

/-- Display name of a control state, as printed in the step table. -/
def stateName : St → String
  | .q0 => "q0"
  | .q1 => "q1"
  | .q2 => "q2"

/-- Display character of a stack symbol. -/
def stackChar : StackSym → Char
  | .S => 'S'
  | .V => 'V'
  | .C => 'C'

/-- One row of the step table built by stepsTable: state name, remaining
input (epsilon when fully consumed), and the stack rendered from top to
bottom (epsilon when empty). -/
def renderRow (cfg : Config) : List String :=
  [stateName cfg.state,
   if cfg.remaining.isEmpty then "ε" else String.mk cfg.remaining,
   if cfg.stack.isEmpty then "ε" else String.mk (cfg.stack.map stackChar)]

/-- The fixed diagnostic message printed by the except branch of
stepsTable. -/
def rejectionMessage : String := "The input is empty but the stack is not empty!"

/-- Model of stepsTable: the rows of the table that gets printed (the rows
of every configuration produced before the iteration ended or failed) and
the optional diagnostic message, present exactly when iterating the
stepwise reader raised an exception (which the except branch catches,
printing the message after the table built so far). -/
def stepsTable (input : List Char) : List (List String) × Option String :=
  let p := traceList input
  (p.1.map renderRow, if p.2 then some rejectionMessage else none)

/-- A character the caller may pass before the end marker gets appended:
a lowercase letter or a space. -/
def goodChar (c : Char) : Bool :=
  c = ' ' ∨ c ∈ vowels ∨ c ∈ consonants

/-- A sentence is valid when all of its characters are lowercase letters
or spaces. -/
def validSentence (s : List Char) : Prop := ∀ c ∈ s, goodChar c = true

instance (s : List Char) : Decidable (validSentence s) :=
  inferInstanceAs (Decidable (∀ c ∈ s, goodChar c = true))

/-- The words of a sentence: maximal runs of non-space characters, with
runs of spaces acting as separators (spec-side definition, following the
wording of the claims). -/
def words : List Char → List (List Char)
  | [] => []
  | c :: rest =>
    if c = ' ' then words rest
    else (c :: rest.takeWhile (fun d => d ≠ ' ')) ::
      words (rest.dropWhile (fun d => d ≠ ' '))
termination_by s => s.length
decreasing_by
  · simp
  · simp only [List.length_cons]
    refine Nat.lt_succ_of_le ?_
    induction rest with
    | nil => simp
    | cons a l ih =>
      rw [List.dropWhile_cons]
      split
      · exact Nat.le_succ_of_le ih
      · simp

/-- Whether the first letter of a word is a vowel. -/
def firstIsVowel : List Char → Bool
  | [] => false
  | c :: _ => c ∈ vowels

/-- Whether the first letter of a word is a consonant. -/
def firstIsConsonant : List Char → Bool
  | [] => false
  | c :: _ => c ∈ consonants

/-- Number of words of a sentence whose first letter is a vowel. -/
def vowelWordCount (s : List Char) : Nat :=
  ((words s).filter firstIsVowel).length

/-- Number of words of a sentence whose first letter is a consonant. -/
def consonantWordCount (s : List Char) : Nat :=
  ((words s).filter firstIsConsonant).length

/-- Signed running difference between vowel-starting and consonant-starting
words of a sentence, scanning left to right; the flag records whether the
scan is currently inside a word. -/
def diff : Bool → List Char → Int
  | _, [] => 0
  | inw, c :: rest =>
    if c = ' ' then diff false rest
    else if inw then diff true rest
    else (if c ∈ vowels then 1 else -1) + diff true rest

/-- Contribution of one character to the signed difference. -/
def delta (inw : Bool) (c : Char) : Int :=
  if c = ' ' then 0
  else if inw then 0
  else if c ∈ vowels then 1 else -1

/-- The stack encoding a signed difference n: n vowel credits above the
bottom marker when n is nonnegative, otherwise minus n consonant credits
above the bottom marker. -/
def encode (n : Int) : List StackSym :=
  (if 0 ≤ n then List.replicate n.toNat .V else List.replicate (-n).toNat .C)
    ++ [.S]

/-- The control state corresponding to an in-word flag: q1 inside a word,
q0 otherwise. -/
def stOf (inw : Bool) : St := if inw then .q1 else .q0

/-- Shape asserted by the stack invariant: the bottom marker exactly once,
at the base, and above it a homogeneous run of vowel credits or of
consonant credits. -/
def StackShape (stk : List StackSym) : Prop :=
  ∃ k : Nat, stk = List.replicate k .V ++ [.S] ∨ stk = List.replicate k .C ++ [.S]

/-! ### Character class lemmas -/

lemma mem_vowels_iff {c : Char} :
    c ∈ vowels ↔ c = 'a' ∨ c = 'e' ∨ c = 'i' ∨ c = 'o' ∨ c = 'u' := by
  simp [vowels]

lemma mem_consonants_iff {c : Char} :
    c ∈ consonants ↔
      c = 'b' ∨ c = 'c' ∨ c = 'd' ∨ c = 'f' ∨ c = 'g' ∨ c = 'h' ∨ c = 'j' ∨
      c = 'k' ∨ c = 'l' ∨ c = 'm' ∨ c = 'n' ∨ c = 'p' ∨ c = 'q' ∨ c = 'r' ∨
      c = 's' ∨ c = 't' ∨ c = 'v' ∨ c = 'w' ∨ c = 'x' ∨ c = 'y' ∨ c = 'z' := by
  simp [consonants]

lemma vowel_facts {c : Char} (h : c ∈ vowels) :
    c ≠ '!' ∧ c ≠ ' ' ∧ c ∉ consonants := by
  rw [mem_vowels_iff] at h
  rcases h with rfl | rfl | rfl | rfl | rfl <;> decide

lemma consonant_facts {c : Char} (h : c ∈ consonants) :
    c ≠ '!' ∧ c ≠ ' ' ∧ c ∉ vowels := by
  rw [mem_consonants_iff] at h
  rcases h with rfl | rfl | rfl | rfl | rfl | rfl | rfl | rfl | rfl | rfl | rfl
    | rfl | rfl | rfl | rfl | rfl | rfl | rfl | rfl | rfl | rfl <;> decide

lemma goodChar_cases {c : Char} (h : goodChar c = true) :
    c = ' ' ∨ c ∈ vowels ∨ c ∈ consonants := by
  unfold goodChar at h
  exact of_decide_eq_true h

/-! ### Lemmas about the stack encoding of a signed difference -/

lemma encode_zero : encode 0 = [.S] := by
  simp [encode]

lemma encode_ofNat (k : Nat) : encode (k : Int) = List.replicate k .V ++ [.S] := by
  simp [encode]

lemma encode_negOfNat (k : Nat) :
    encode (-(k : Int)) = List.replicate k .C ++ [.S] := by
  cases k with
  | zero => simp [encode]
  | succ m =>
    unfold encode
    rw [if_neg (by omega)]
    congr 2

lemma encode_succ (k : Nat) : encode ((k : Int) + 1) = .V :: encode (k : Int) := by
  have h1 : ((k : Int) + 1) = ((k + 1 : Nat) : Int) := by push_cast; ring
  rw [h1, encode_ofNat, encode_ofNat, List.replicate_succ, List.cons_append]

lemma encode_negSucc (k : Nat) :
    encode (-((k : Int) + 1)) = .C :: encode (-(k : Int)) := by
  have h1 : -((k : Int) + 1) = -((k + 1 : Nat) : Int) := by push_cast; ring
  rw [h1, encode_negOfNat, encode_negOfNat, List.replicate_succ, List.cons_append]

lemma encode_ne_nil (n : Int) : encode n ≠ [] := by
  simp [encode]

lemma encode_cases (n : Int) :
    (n = 0 ∧ encode n = [.S]) ∨
    (∃ k : Nat, n = (k : Int) + 1 ∧ encode n = .V :: encode (k : Int)) ∨
    (∃ k : Nat, n = -((k : Int) + 1) ∧ encode n = .C :: encode (-(k : Int))) := by
  cases n with
  | ofNat m =>
    cases m with
    | zero => exact Or.inl ⟨rfl, encode_zero⟩
    | succ k =>
      have hk : (Int.ofNat (k + 1)) = (k : Int) + 1 := by
        rw [Int.ofNat_eq_coe]; push_cast; ring
      refine Or.inr (Or.inl ⟨k, hk, ?_⟩)
      rw [hk]
      exact encode_succ k
  | negSucc k =>
    refine Or.inr (Or.inr ⟨k, Int.negSucc_eq k, ?_⟩)
    rw [Int.negSucc_eq k]
    exact encode_negSucc k

lemma exists_cons_encode (n : Int) : ∃ t below, encode n = t :: below := by
  rcases encode_cases n with ⟨_, h⟩ | ⟨k, _, h⟩ | ⟨k, _, h⟩ <;> exact ⟨_, _, h⟩

lemma encode_eq_bottom_iff (n : Int) : encode n = [.S] ↔ n = 0 := by
  constructor
  · intro h
    rcases encode_cases n with ⟨h0, _⟩ | ⟨k, hk, he⟩ | ⟨k, hk, he⟩
    · exact h0
    · rw [he] at h; simp at h
    · rw [he] at h; simp at h
  · rintro rfl; exact encode_zero

lemma stackShape_encode (n : Int) : StackShape (encode n) := by
  cases n with
  | ofNat m => exact ⟨m, Or.inl (by rw [← encode_ofNat]; rfl)⟩
  | negSucc k =>
    refine ⟨k + 1, Or.inr ?_⟩
    rw [show (Int.negSucc k) = -((k + 1 : Nat) : Int) by
      rw [Int.negSucc_eq]; push_cast; ring]
    rw [encode_negOfNat]

/-! ### Transition table lemmas -/

lemma transitions_space (q : St) (hq : q = .q0 ∨ q = .q1) (t : StackSym) :
    transitions q ' ' t = some (.q0, [t]) := by
  rcases hq with rfl | rfl <;> cases t <;> decide

lemma transitions_end (q : St) (hq : q = .q0 ∨ q = .q1) (t : StackSym) :
    transitions q '!' t = some (.q2, if t = .S then [] else [t]) := by
  rcases hq with rfl | rfl <;> cases t <;> decide

lemma transitions_vowel_q0 {c : Char} (h : c ∈ vowels) (t : StackSym) :
    transitions .q0 c t = some (match t with
      | .S => (.q1, [.V, .S])
      | .V => (.q1, [.V, .V])
      | .C => (.q1, [])) := by
  rw [mem_vowels_iff] at h
  rcases h with rfl | rfl | rfl | rfl | rfl <;> cases t <;> decide

lemma transitions_consonant_q0 {c : Char} (h : c ∈ consonants) (t : StackSym) :
    transitions .q0 c t = some (match t with
      | .S => (.q1, [.C, .S])
      | .V => (.q1, [])
      | .C => (.q1, [.C, .C])) := by
  rw [mem_consonants_iff] at h
  rcases h with rfl | rfl | rfl | rfl | rfl | rfl | rfl | rfl | rfl | rfl | rfl
    | rfl | rfl | rfl | rfl | rfl | rfl | rfl | rfl | rfl | rfl <;> cases t <;> decide

lemma transitions_letter_q1 {c : Char} (h : c ∈ vowels ∨ c ∈ consonants)
    (t : StackSym) : transitions .q1 c t = some (.q1, [t]) := by
  have hne : c ≠ '!' ∧ c ≠ ' ' := by
    rcases h with h | h
    · exact ⟨(vowel_facts h).1, (vowel_facts h).2.1⟩
    · exact ⟨(consonant_facts h).1, (consonant_facts h).2.1⟩
  simp [transitions, hne.1, hne.2, h]

lemma transitions_q2 (a : Char) (t : StackSym) : transitions .q2 a t = none := rfl

/-! ### One-step lemmas on encoded stacks -/

lemma diff_delta (inw : Bool) (c : Char) (s : List Char) :
    diff inw (c :: s) = delta inw c + diff (if c = ' ' then false else true) s := by
  by_cases h : c = ' '
  · subst h; simp [diff, delta]
  · cases inw <;> simp [diff, delta, h]

lemma stepRS_encode {c : Char} (hc : goodChar c = true) (n : Int) (inw : Bool) :
    stepRS (stOf inw) (encode n) c =
      some (if c = ' ' then .q0 else .q1, encode (n + delta inw c)) := by
  rcases goodChar_cases hc with rfl | hv | hk
  · obtain ⟨t, below, hstk⟩ := exists_cons_encode n
    rw [hstk]
    simp only [stepRS]
    rw [transitions_space (stOf inw) (by cases inw <;> simp [stOf]) t]
    simp [delta, ← hstk]
  · have hne := vowel_facts hv
    have hds : delta inw c = if inw then 0 else 1 := by
      simp [delta, hne.2.1, hv]
    cases inw with
    | true =>
      obtain ⟨t, below, hstk⟩ := exists_cons_encode n
      rw [hstk]
      simp only [stepRS]
      unfold stOf
      rw [if_pos rfl, transitions_letter_q1 (Or.inl hv) t]
      simp [hds, hne.2.1, ← hstk]
    | false =>
      unfold stOf
      rw [if_neg (by simp)]
      rcases encode_cases n with ⟨h0, hstk⟩ | ⟨k, hk, hstk⟩ | ⟨k, hk, hstk⟩
      · subst h0
        rw [hstk]
        simp only [stepRS]
        rw [transitions_vowel_q0 hv .S]
        simp only [hds, if_neg (show ¬ (false = true) by simp)]
        rw [if_neg hne.2.1]
        rw [show (0 : Int) + 1 = ((0 : Nat) : Int) + 1 by norm_num, encode_succ,
          show ((0 : Nat) : Int) = (0 : Int) by norm_num, encode_zero]
        rfl
      · rw [hstk]
        simp only [stepRS]
        rw [transitions_vowel_q0 hv .V]
        simp only [hds, if_neg (show ¬ (false = true) by simp)]
        rw [if_neg hne.2.1]
        rw [hk]
        rw [show (k : Int) + 1 + 1 = ((k + 1 : Nat) : Int) + 1 by push_cast; ring,
          encode_succ, show ((k + 1 : Nat) : Int) = (k : Int) + 1 by push_cast; ring,
          encode_succ]
        rfl
      · rw [hstk]
        simp only [stepRS]
        rw [transitions_vowel_q0 hv .C]
        simp only [hds, if_neg (show ¬ (false = true) by simp)]
        rw [if_neg hne.2.1]
        rw [hk]
        rw [show -((k : Int) + 1) + 1 = -(k : Int) by ring]
        rfl
  · have hne := consonant_facts hk
    have hds : delta inw c = if inw then 0 else -1 := by
      simp [delta, hne.2.1, hne.2.2]
    cases inw with
    | true =>
      obtain ⟨t, below, hstk⟩ := exists_cons_encode n
      rw [hstk]
      simp only [stepRS]
      unfold stOf
      rw [if_pos rfl, transitions_letter_q1 (Or.inr hk) t]
      simp [hds, hne.2.1, ← hstk]
    | false =>
      unfold stOf
      rw [if_neg (by simp)]
      rcases encode_cases n with ⟨h0, hstk⟩ | ⟨m, hm, hstk⟩ | ⟨m, hm, hstk⟩
      · subst h0
        rw [hstk]
        simp only [stepRS]
        rw [transitions_consonant_q0 hk .S]
        simp only [hds, if_neg (show ¬ (false = true) by simp)]
        rw [if_neg hne.2.1]
        rw [show (0 : Int) + -1 = -(((0 : Nat) : Int) + 1) by norm_num,
          encode_negSucc, show -((0 : Nat) : Int) = (0 : Int) by norm_num,
          encode_zero]
        rfl
      · rw [hstk]
        simp only [stepRS]
        rw [transitions_consonant_q0 hk .V]
        simp only [hds, if_neg (show ¬ (false = true) by simp)]
        rw [if_neg hne.2.1]
        rw [hm]
        rw [show (m : Int) + 1 + -1 = (m : Int) by ring]
        rfl
      · rw [hstk]
        simp only [stepRS]
        rw [transitions_consonant_q0 hk .C]
        simp only [hds, if_neg (show ¬ (false = true) by simp)]
        rw [if_neg hne.2.1]
        rw [hm]
        rw [show -((m : Int) + 1) + -1 = -(((m + 1 : Nat) : Int) + 1) by push_cast; ring,
          encode_negSucc, show -((m + 1 : Nat) : Int) = -((m : Int) + 1) by push_cast; ring,
          encode_negSucc]
        rfl

lemma stepRS_end (q : St) (hq : q = .q0 ∨ q = .q1) (n : Int) :
    stepRS q (encode n) '!' = some (.q2, if n = 0 then [] else encode n) := by
  rcases encode_cases n with ⟨h0, hstk⟩ | ⟨k, hk, hstk⟩ | ⟨k, hk, hstk⟩
  · subst h0
    rw [hstk]
    simp only [stepRS]
    rw [transitions_end q hq .S]
    simp
  · rw [hstk]
    simp only [stepRS]
    rw [transitions_end q hq .V]
    rw [if_neg (show ¬ (StackSym.V = .S) by decide)]
    rw [if_neg (show ¬ (n = 0) by omega)]
    rfl
  · rw [hstk]
    simp only [stepRS]
    rw [transitions_end q hq .C]
    rw [if_neg (show ¬ (StackSym.C = .S) by decide)]
    rw [if_neg (show ¬ (n = 0) by omega)]
    rfl

/-! ### Run lemmas -/

lemma runAux_append (s t : List Char) : ∀ (q : St) (stk : List StackSym),
    runAux q stk (s ++ t) = (runAux q stk s).bind (fun p => runAux p.1 p.2 t) := by
  induction s with
  | nil => intro q stk; simp [runAux]
  | cons a s ih =>
    intro q stk
    rw [List.cons_append]
    simp only [runAux]
    cases h : stepRS q stk a with
    | none => simp
    | some p => simp [ih]

/-- Invariant of the run over a valid sentence: starting from a state q0
or q1 and a stack encoding a signed difference n, the run consumes the
whole sentence and ends in q0 or q1 with the stack encoding n plus the
signed difference contributed by the sentence. -/
lemma runAux_sentence : ∀ (s : List Char), validSentence s →
    ∀ (n : Int) (inw : Bool), ∃ inw2 : Bool,
      runAux (stOf inw) (encode n) s = some (stOf inw2, encode (n + diff inw s)) := by
  intro s
  induction s with
  | nil =>
    intro _ n inw
    exact ⟨inw, by simp [runAux, diff]⟩
  | cons c s ih =>
    intro h n inw
    have hc : goodChar c = true := h c (by simp)
    have hs : validSentence s := fun d hd => h d (by simp [hd])
    simp only [runAux, stepRS_encode hc n inw]
    have hst : (if c = ' ' then St.q0 else St.q1)
        = stOf (if c = ' ' then false else true) := by
      by_cases hsp : c = ' ' <;> simp [stOf, hsp]
    rw [hst]
    obtain ⟨inw2, h2⟩ := ih hs (n + delta inw c) (if c = ' ' then false else true)
    refine ⟨inw2, ?_⟩
    rw [h2, diff_delta, add_assoc]

/-- Consuming the end marker from q0 or q1 with an encoded stack: the run
moves to q2, popping the bottom marker exactly when the encoded difference
is zero. -/
lemma runAux_end (q : St) (hq : q = .q0 ∨ q = .q1) (n : Int) :
    runAux q (encode n) ['!'] = some (.q2, if n = 0 then [] else encode n) := by
  simp only [runAux, stepRS_end q hq n]

/-- The verdict on a valid sentence with the end marker appended is
acceptance exactly of a zero signed difference. -/
lemma accepts_eq_diff (s : List Char) (h : validSentence s) :
    accepts_input (s ++ ['!']) = decide (diff false s = 0) := by
  obtain ⟨inw2, hrun⟩ := runAux_sentence s h 0 false
  unfold accepts_input initial_state initial_stack_symbol
  rw [show [StackSym.S] = encode 0 from encode_zero.symm]
  rw [runAux_append]
  rw [show St.q0 = stOf false from rfl, hrun]
  rw [Option.some_bind]
  rw [runAux_end (stOf inw2) (by cases inw2 <;> simp [stOf]) (0 + diff false s)]
  by_cases hd : diff false s = 0
  · simp [hd]
  · rw [if_neg (by omega)]
    simp only [decide_eq_false hd]
    have := encode_ne_nil (0 + diff false s)
    cases henc : encode (0 + diff false s) with
    | nil => exact absurd henc this
    | cons x l => simp

/-! ### Relating the scanner difference to the word counts -/

lemma length_dropWhile_le_self (p : Char → Bool) (l : List Char) :
    (l.dropWhile p).length ≤ l.length := by
  induction l with
  | nil => simp
  | cons a l ih =>
    rw [List.dropWhile_cons]
    split
    · exact Nat.le_succ_of_le ih
    · simp

lemma mem_of_mem_dropWhile {p : Char → Bool} {l : List Char} {x : Char}
    (h : x ∈ l.dropWhile p) : x ∈ l := by
  induction l with
  | nil => simp at h
  | cons a l ih =>
    rw [List.dropWhile_cons] at h
    split at h
    · exact List.mem_cons_of_mem a (ih h)
    · exact h

lemma diff_true_dropWhile (r : List Char) :
    diff true r = diff false (r.dropWhile (fun d => d ≠ ' ')) := by
  induction r with
  | nil => simp [diff]
  | cons x r ih =>
    rw [List.dropWhile_cons]
    by_cases hx : x = ' '
    · subst hx
      simp [diff]
    · rw [if_pos (show decide (x ≠ ' ') = true by simpa using hx)]
      rw [← ih]
      simp [diff, hx]

lemma words_nil : words [] = [] := by rw [words]

lemma words_space (r : List Char) : words (' ' :: r) = words r := by
  rw [words]
  simp

lemma words_letter {c : Char} (hc : c ≠ ' ') (r : List Char) :
    words (c :: r) = (c :: r.takeWhile (fun d => d ≠ ' ')) ::
      words (r.dropWhile (fun d => d ≠ ' ')) := by
  rw [words]
  simp [hc]

/-- The scanner difference of a valid sentence equals the difference of
the word counts. -/
lemma diff_eq_counts :
    ∀ (N : Nat) (s : List Char), s.length ≤ N → validSentence s →
      diff false s = (vowelWordCount s : Int) - (consonantWordCount s : Int) := by
  intro N
  induction N with
  | zero =>
    intro s hs _
    have : s = [] := List.length_eq_zero.mp (Nat.le_zero.mp hs)
    subst this
    simp [diff, vowelWordCount, consonantWordCount, words_nil]
  | succ N ih =>
    intro s hs hv
    match s with
    | [] => simp [diff, vowelWordCount, consonantWordCount, words_nil]
    | c :: r =>
      have hr : validSentence r := fun d hd => hv d (by simp [hd])
      by_cases hc : c = ' '
      · subst hc
        have h1 := ih r (by simpa using Nat.le_of_succ_le_succ hs) hr
        simpa [diff, vowelWordCount, consonantWordCount, words_space] using h1
      · have hgood : goodChar c = true := hv c (by simp)
        have hrest : validSentence (r.dropWhile (fun d => d ≠ ' ')) :=
          fun d hd => hr d (mem_of_mem_dropWhile hd)
        have hlen : (r.dropWhile (fun d => d ≠ ' ')).length ≤ N := by
          have := length_dropWhile_le_self (fun d => decide (d ≠ ' ')) r
          have h2 : r.length ≤ N := by simpa using Nat.le_of_succ_le_succ hs
          omega
        have h1 := ih _ hlen hrest
        rcases goodChar_cases hgood with hsp | hvw | hco
        · exact absurd hsp hc
        · have hfacts := vowel_facts hvw
          rw [show diff false (c :: r)
              = 1 + diff false (r.dropWhile (fun d => d ≠ ' ')) by
            simp [diff, hc, hvw, diff_true_dropWhile]]
          rw [h1]
          unfold vowelWordCount consonantWordCount
          rw [words_letter hc]
          rw [List.filter_cons, List.filter_cons]
          rw [if_pos (show firstIsVowel (c :: r.takeWhile (fun d => d ≠ ' '))
              = true by simp [firstIsVowel, hvw])]
          rw [if_neg (show ¬ firstIsConsonant (c :: r.takeWhile (fun d => d ≠ ' '))
              = true by simp [firstIsConsonant, hfacts.2.2])]
          rw [List.length_cons]
          push_cast
          ring
        · have hfacts := consonant_facts hco
          rw [show diff false (c :: r)
              = -1 + diff false (r.dropWhile (fun d => d ≠ ' ')) by
            simp [diff, hc, hfacts.2.2, diff_true_dropWhile]]
          rw [h1]
          unfold vowelWordCount consonantWordCount
          rw [words_letter hc]
          rw [List.filter_cons, List.filter_cons]
          rw [if_neg (show ¬ firstIsVowel (c :: r.takeWhile (fun d => d ≠ ' '))
              = true by simp [firstIsVowel, hfacts.2.2])]
          rw [if_pos (show firstIsConsonant (c :: r.takeWhile (fun d => d ≠ ' '))
              = true by simp [firstIsConsonant, hco])]
          rw [List.length_cons]
          push_cast
          ring

/-! ### Trace lemmas -/

lemma stOf_cases (inw : Bool) : stOf inw = .q0 ∨ stOf inw = .q1 := by
  cases inw <;> simp [stOf]

lemma stOf_of_space (c : Char) :
    (if c = ' ' then St.q0 else St.q1) = stOf (if c = ' ' then false else true) := by
  by_cases hsp : c = ' ' <;> simp [stOf, hsp]

lemma traceAux_length : ∀ (s : List Char), validSentence s →
    ∀ (n : Int) (inw : Bool),
      (traceAux (stOf inw) (encode n) (s ++ ['!'])).1.length = s.length + 1 := by
  intro s
  induction s with
  | nil =>
    intro _ n inw
    rw [List.nil_append]
    simp only [traceAux, stepRS_end (stOf inw) (stOf_cases inw) n]
    simp [traceAux]
  | cons c s ih =>
    intro h n inw
    have hc : goodChar c = true := h c (by simp)
    have hs : validSentence s := fun d hd => h d (by simp [hd])
    rw [List.cons_append]
    simp only [traceAux, stepRS_encode hc n inw]
    simp only [List.length_cons]
    rw [stOf_of_space c]
    rw [ih hs (n + delta inw c) (if c = ' ' then false else true)]

lemma traceAux_stack : ∀ (s : List Char), validSentence s →
    ∀ (n : Int) (inw : Bool),
      ∀ cfg ∈ (traceAux (stOf inw) (encode n) (s ++ ['!'])).1,
        (∃ m, cfg.stack = encode m) ∨ (cfg.remaining = [] ∧ cfg.stack = []) := by
  intro s
  induction s with
  | nil =>
    intro _ n inw cfg hcfg
    rw [List.nil_append] at hcfg
    simp only [traceAux, stepRS_end (stOf inw) (stOf_cases inw) n] at hcfg
    simp only [traceAux, List.mem_singleton] at hcfg
    subst hcfg
    by_cases hn : n = 0
    · exact Or.inr ⟨rfl, by simp [hn]⟩
    · exact Or.inl ⟨n, by simp [hn]⟩
  | cons c s ih =>
    intro h n inw cfg hcfg
    have hc : goodChar c = true := h c (by simp)
    have hs : validSentence s := fun d hd => h d (by simp [hd])
    rw [List.cons_append] at hcfg
    simp only [traceAux, stepRS_encode hc n inw] at hcfg
    rcases List.mem_cons.mp hcfg with hhead | htail
    · subst hhead
      exact Or.inl ⟨n + delta inw c, rfl⟩
    · rw [stOf_of_space c] at htail
      exact ih hs (n + delta inw c) (if c = ' ' then false else true) cfg htail

lemma traceAux_err : ∀ (s : List Char), validSentence s →
    ∀ (n : Int) (inw : Bool),
      (traceAux (stOf inw) (encode n) (s ++ ['!'])).2
        = !decide (n + diff inw s = 0) := by
  intro s
  induction s with
  | nil =>
    intro _ n inw
    rw [List.nil_append]
    simp only [traceAux, stepRS_end (stOf inw) (stOf_cases inw) n]
    by_cases hn : n = 0
    · simp [traceAux, hn, diff]
    · have := encode_ne_nil n
      simp only [traceAux, if_neg hn]
      rw [show diff inw [] = 0 from rfl]
      cases henc : encode n with
      | nil => exact absurd henc this
      | cons x l => simp [henc, hn]
  | cons c s ih =>
    intro h n inw
    have hc : goodChar c = true := h c (by simp)
    have hs : validSentence s := fun d hd => h d (by simp [hd])
    rw [List.cons_append]
    simp only [traceAux, stepRS_encode hc n inw]
    rw [stOf_of_space c]
    rw [ih hs (n + delta inw c) (if c = ' ' then false else true)]
    rw [diff_delta, add_assoc]

/-! ### Claim theorems -/

/-- C1: for every input string over lowercase letters and spaces with the
end marker appended, the run returns Accepted if and only if the number of
words whose first letter is a vowel equals the number of words whose first
letter is a consonant, runs of spaces acting as separators (a spaces-only
sentence has zero words of each kind and is accepted). -/
theorem accepts_iff_balanced (s : List Char) (h : validSentence s) :
    accepts_input (s ++ ['!']) = true ↔ vowelWordCount s = consonantWordCount s := by
  rw [accepts_eq_diff s h, diff_eq_counts s.length s le_rfl h]
  simp only [decide_eq_true_eq, sub_eq_zero]
  exact ⟨fun h2 => by exact_mod_cast h2, fun h2 => by exact_mod_cast h2⟩

theorem accepts_iff_balanced_witness :
    validSentence ['c', 'a', 't', ' ', 'a', 'p', 'p', 'l', 'e'] ∧
      (accepts_input (['c', 'a', 't', ' ', 'a', 'p', 'p', 'l', 'e'] ++ ['!']) = true
        ↔ vowelWordCount ['c', 'a', 't', ' ', 'a', 'p', 'p', 'l', 'e']
            = consonantWordCount ['c', 'a', 't', ' ', 'a', 'p', 'p', 'l', 'e']) :=
  ⟨by decide,
   accepts_iff_balanced ['c', 'a', 't', ' ', 'a', 'p', 'p', 'l', 'e'] (by decide)⟩

/-- C2: on a well-formed input, the verdict is Accepted if and only if at
the moment the end marker is consumed the stack is exactly the bottom
marker, which the end transition then pops leaving the stack empty; with
any other stack at the end marker the stack is left unchanged and the
verdict is Rejected. -/
theorem verdict_iff_bottom_at_end (s : List Char) (h : validSentence s) :
    ∃ q stk, runAux initial_state [initial_stack_symbol] s = some (q, stk) ∧
      runAux initial_state [initial_stack_symbol] (s ++ ['!'])
        = some (.q2, if stk = [.S] then [] else stk) ∧
      (accepts_input (s ++ ['!']) = true ↔ stk = [.S]) := by
  obtain ⟨inw2, hrun⟩ := runAux_sentence s h 0 false
  refine ⟨stOf inw2, encode (0 + diff false s), ?_, ?_, ?_⟩
  · show runAux .q0 [.S] s = _
    rw [show [StackSym.S] = encode 0 from encode_zero.symm,
      show St.q0 = stOf false from rfl]
    exact hrun
  · show runAux .q0 [.S] (s ++ ['!']) = _
    rw [show [StackSym.S] = encode 0 from encode_zero.symm,
      show St.q0 = stOf false from rfl]
    rw [runAux_append, hrun, Option.some_bind]
    rw [runAux_end (stOf inw2) (stOf_cases inw2) (0 + diff false s)]
    by_cases hd : 0 + diff false s = 0
    · rw [if_pos hd, if_pos (show encode (0 + diff false s) = encode 0 by rw [hd])]
    · rw [if_neg hd, if_neg (show ¬ encode (0 + diff false s) = encode 0 by
        rw [encode_zero]
        exact fun hh => hd ((encode_eq_bottom_iff _).mp hh))]
  · rw [accepts_eq_diff s h, encode_eq_bottom_iff]
    simp

theorem verdict_iff_bottom_at_end_witness :
    ∃ q stk, runAux initial_state [initial_stack_symbol] [' '] = some (q, stk) ∧
      runAux initial_state [initial_stack_symbol] ([' '] ++ ['!'])
        = some (.q2, if stk = [.S] then [] else stk) ∧
      (accepts_input ([' '] ++ ['!']) = true ↔ stk = [.S]) :=
  verdict_iff_bottom_at_end [' '] (by decide)

/-- C3: in state Scanning (q0), a vowel moves to InWord (q1), pushing a
vowel credit when the top is the bottom marker or a vowel credit and
popping the top when it is a consonant credit; a consonant is symmetric
with the two credit kinds swapped; a space stays in Scanning with the
stack unchanged. -/
theorem scanning_step_effects (c d : Char) (hc : c ∈ vowels)
    (hd : d ∈ consonants) (rest : List Char) (below : List StackSym) :
    (stepConfig ⟨.q0, c :: rest, .S :: below⟩
        = some ⟨.q1, rest, .V :: .S :: below⟩ ∧
     stepConfig ⟨.q0, c :: rest, .V :: below⟩
        = some ⟨.q1, rest, .V :: .V :: below⟩ ∧
     stepConfig ⟨.q0, c :: rest, .C :: below⟩ = some ⟨.q1, rest, below⟩) ∧
    (stepConfig ⟨.q0, d :: rest, .S :: below⟩
        = some ⟨.q1, rest, .C :: .S :: below⟩ ∧
     stepConfig ⟨.q0, d :: rest, .C :: below⟩
        = some ⟨.q1, rest, .C :: .C :: below⟩ ∧
     stepConfig ⟨.q0, d :: rest, .V :: below⟩ = some ⟨.q1, rest, below⟩) ∧
    (∀ t, stepConfig ⟨.q0, ' ' :: rest, t :: below⟩
        = some ⟨.q0, rest, t :: below⟩) := by
  refine ⟨⟨?_, ?_, ?_⟩, ⟨?_, ?_, ?_⟩, fun t => ?_⟩ <;>
    simp only [stepConfig, stepRS] <;>
    first
      | (rw [transitions_vowel_q0 hc]; rfl)
      | (rw [transitions_consonant_q0 hd]; rfl)
      | (rw [transitions_space .q0 (Or.inl rfl) t]; rfl)

theorem scanning_step_effects_witness :
    stepConfig ⟨.q0, ['a'], [.S]⟩ = some ⟨.q1, [], [.V, .S]⟩ :=
  (scanning_step_effects 'a' 'b' (by decide) (by decide) [] []).1.1

/-- C4 as stated fails: the trace of the accepted spaces-only input
contains its final configuration, whose stack is empty after the end
transition popped the bottom marker, so the stack of that configuration
does not contain the bottom marker at all. -/
theorem stack_shape_claim_cex :
    (⟨.q2, [], []⟩ : Config) ∈ (traceList [' ', '!']).1 ∧
      ¬ StackShape ([] : List StackSym) := by
  refine ⟨by decide, ?_⟩
  rintro ⟨k, h | h⟩ <;> simp at h

/-- C4 amended: in every configuration of the trace of a well-formed
input the stack has the invariant shape (the bottom marker exactly once,
at the base, with a homogeneous run of vowel credits or of consonant
credits above it), except that the final configuration of an accepting
run has input consumed and an empty stack, the end transition having
popped the bottom marker. -/
theorem stack_shape_invariant (s : List Char) (h : validSentence s) :
    ∀ cfg ∈ (traceList (s ++ ['!'])).1,
      StackShape cfg.stack ∨ (cfg.remaining = [] ∧ cfg.stack = []) := by
  intro cfg hcfg
  simp only [traceList] at hcfg
  rcases List.mem_cons.mp hcfg with hhead | htail
  · subst hhead
    exact Or.inl ⟨0, Or.inl (by simp [initial_stack_symbol])⟩
  · rw [show [initial_stack_symbol] = encode 0 from encode_zero.symm,
      show initial_state = stOf false from rfl] at htail
    rcases traceAux_stack s h 0 false cfg htail with ⟨m, hm⟩ | hfin
    · exact Or.inl (hm ▸ stackShape_encode m)
    · exact Or.inr hfin

theorem stack_shape_invariant_witness :
    StackShape (⟨.q0, [' ', '!'], [.S]⟩ : Config).stack ∨
      ((⟨.q0, [' ', '!'], [.S]⟩ : Config).remaining = [] ∧
        (⟨.q0, [' ', '!'], [.S]⟩ : Config).stack = []) :=
  stack_shape_invariant [' '] (by decide) ⟨.q0, [' ', '!'], [.S]⟩ (by decide)

/-- C5 as stated fails: consuming the end marker with a vowel credit on
top does move the automaton into q2, the final state, with the stack
unchanged; the run on the input with a single vowel-starting word ends in
q2 and is nevertheless rejected, acceptance being by empty stack. -/
theorem accepted_state_claim_cex :
    stepConfig ⟨.q1, ['!'], [.V, .S]⟩ = some ⟨.q2, [], [.V, .S]⟩ ∧
      St.q2 ∈ final_states ∧
      runAux initial_state [initial_stack_symbol] ['a', '!']
        = some (.q2, [.V, .S]) ∧
      accepts_input ['a', '!'] = false := by decide

/-- C5 amended: on the end marker the automaton always transitions from
q0 or q1 to the terminal state q2, popping the bottom marker exactly when
it is the top and leaving the stack unchanged otherwise; the resulting
stack is empty (the empty-stack acceptance condition) exactly when the
top was the bottom marker with nothing below it. -/
theorem end_marker_step (q : St) (hq : q = .q0 ∨ q = .q1) (t : StackSym)
    (below : List StackSym) (rest : List Char) :
    stepConfig ⟨q, '!' :: rest, t :: below⟩
      = some ⟨.q2, rest, if t = .S then below else t :: below⟩ ∧
    (∀ (stk : List StackSym) (rest2 : List Char),
        stepConfig ⟨.q2, rest2, stk⟩ = none) ∧
    ((if t = .S then below else t :: below).isEmpty = true
      ↔ t = .S ∧ below = []) := by
  refine ⟨?_, ?_, ?_⟩
  · simp only [stepConfig, stepRS]
    rw [transitions_end q hq t]
    by_cases hts : t = .S
    · subst hts; simp
    · rw [if_neg hts, if_neg hts]
      simp
  · intro stk rest2
    cases rest2 with
    | nil => rfl
    | cons a r =>
      cases stk with
      | nil => rfl
      | cons u l =>
        simp only [stepConfig, stepRS, transitions_q2]
        rfl
  · by_cases hts : t = .S <;> cases below <;> simp [hts]

theorem end_marker_step_witness :
    stepConfig ⟨.q0, ['!'], [.V, .S]⟩ = some ⟨.q2, [], [.V, .S]⟩ := by
  have h := (end_marker_step .q0 (Or.inl rfl) .V [.S] []).1
  simpa using h

/-- C6: in state InWord (q1), consuming any letter leaves both the state
and the stack unchanged, and consuming a space moves back to Scanning
(q0) with the stack unchanged. -/
theorem inword_frame (c : Char) (hc : c ∈ vowels ∨ c ∈ consonants)
    (rest : List Char) (t : StackSym) (below : List StackSym) :
    stepConfig ⟨.q1, c :: rest, t :: below⟩ = some ⟨.q1, rest, t :: below⟩ ∧
    stepConfig ⟨.q1, ' ' :: rest, t :: below⟩ = some ⟨.q0, rest, t :: below⟩ := by
  constructor
  · simp only [stepConfig, stepRS]
    rw [transitions_letter_q1 hc t]
    rfl
  · simp only [stepConfig, stepRS]
    rw [transitions_space .q1 (Or.inr rfl) t]
    rfl

theorem inword_frame_witness :
    stepConfig ⟨.q1, ['a'], [.S]⟩ = some ⟨.q1, [], [.S]⟩ :=
  (inword_frame 'a' (Or.inl (by decide)) [] .S []).1

/-- C7: on a well-formed input the run never attempts to pop an empty
stack: every traced configuration with input remaining has a nonempty
stack, the whole run completes without getting stuck, and the only
transition on a bottom-marker top that does not leave the bottom marker
at the base of the replacement is the end-marker transition, which pops
it. -/
theorem no_stack_underflow (s : List Char) (h : validSentence s) :
    (∀ cfg ∈ (traceList (s ++ ['!'])).1, cfg.remaining ≠ [] → cfg.stack ≠ []) ∧
    runAux initial_state [initial_stack_symbol] (s ++ ['!']) ≠ none ∧
    (∀ (q qn : St) (c : Char) (repl : List StackSym),
        transitions q c .S = some (qn, repl) →
          (c = '!' ∧ repl = []) ∨ repl.getLast? = some .S) := by
  refine ⟨?_, ?_, ?_⟩
  · intro cfg hcfg hrem
    simp only [traceList] at hcfg
    rcases List.mem_cons.mp hcfg with hhead | htail
    · subst hhead; simp
    · rw [show [initial_stack_symbol] = encode 0 from encode_zero.symm,
        show initial_state = stOf false from rfl] at htail
      rcases traceAux_stack s h 0 false cfg htail with ⟨m, hm⟩ | hfin
      · rw [hm]; exact encode_ne_nil m
      · exact absurd hfin.1 hrem
  · obtain ⟨inw2, hrun⟩ := runAux_sentence s h 0 false
    show runAux .q0 [.S] (s ++ ['!']) ≠ none
    rw [show [StackSym.S] = encode 0 from encode_zero.symm,
      show St.q0 = stOf false from rfl]
    rw [runAux_append, hrun, Option.some_bind]
    rw [runAux_end (stOf inw2) (stOf_cases inw2) (0 + diff false s)]
    simp
  · intro q qn c repl htr
    cases q with
    | q2 => rw [transitions_q2] at htr; cases htr
    | q0 =>
      by_cases h1 : c = '!'
      · subst h1
        rw [transitions_end .q0 (Or.inl rfl) .S] at htr
        simp only [if_pos rfl, Option.some.injEq, Prod.mk.injEq] at htr
        exact Or.inl ⟨rfl, htr.2.symm⟩
      · by_cases h2 : c = ' '
        · subst h2
          rw [transitions_space .q0 (Or.inl rfl) .S] at htr
          simp only [Option.some.injEq, Prod.mk.injEq] at htr
          rw [← htr.2]
          exact Or.inr rfl
        · by_cases h3 : c ∈ vowels
          · rw [transitions_vowel_q0 h3 .S] at htr
            simp only [Option.some.injEq, Prod.mk.injEq] at htr
            rw [← htr.2]
            exact Or.inr rfl
          · by_cases h4 : c ∈ consonants
            · rw [transitions_consonant_q0 h4 .S] at htr
              simp only [Option.some.injEq, Prod.mk.injEq] at htr
              rw [← htr.2]
              exact Or.inr rfl
            · rw [show transitions .q0 c .S = none by
                simp [transitions, h1, h2, h3, h4]] at htr
              cases htr
    | q1 =>
      by_cases h1 : c = '!'
      · subst h1
        rw [transitions_end .q1 (Or.inr rfl) .S] at htr
        simp only [if_pos rfl, Option.some.injEq, Prod.mk.injEq] at htr
        exact Or.inl ⟨rfl, htr.2.symm⟩
      · by_cases h2 : c = ' '
        · subst h2
          rw [transitions_space .q1 (Or.inr rfl) .S] at htr
          simp only [Option.some.injEq, Prod.mk.injEq] at htr
          rw [← htr.2]
          exact Or.inr rfl
        · by_cases h3 : c ∈ vowels ∨ c ∈ consonants
          · rw [transitions_letter_q1 h3 .S] at htr
            simp only [Option.some.injEq, Prod.mk.injEq] at htr
            rw [← htr.2]
            exact Or.inr rfl
          · rw [show transitions .q1 c .S = none by
              simp [transitions, h1, h2, not_or.mp h3]] at htr
            cases htr

theorem no_stack_underflow_witness :
    (∀ cfg ∈ (traceList ([' '] ++ ['!'])).1,
        cfg.remaining ≠ [] → cfg.stack ≠ []) ∧
    runAux initial_state [initial_stack_symbol] ([' '] ++ ['!']) ≠ none ∧
    (∀ (q qn : St) (c : Char) (repl : List StackSym),
        transitions q c .S = some (qn, repl) →
          (c = '!' ∧ repl = []) ∨ repl.getLast? = some .S) :=
  no_stack_underflow [' '] (by decide)

/-- C8: the step table display is total: its rows are the rendered rows of
every configuration produced before the iteration ended or failed, and
whenever producing the trace raised an exception the display still
contains those rows and additionally reports the fixed diagnostic message
instead of propagating the fault. -/
theorem stepsTable_reports_failure (input : List Char) :
    (stepsTable input).1 = (traceList input).1.map renderRow ∧
    ((traceList input).2 = true → (stepsTable input).2 = some rejectionMessage) := by
  constructor
  · rfl
  · intro hf
    simp [stepsTable, hf]

theorem stepsTable_reports_failure_witness :
    (stepsTable ['a', '!']).2 = some rejectionMessage :=
  (stepsTable_reports_failure ['a', '!']).2 (by decide)

/-- C9: the verdict computation is a pure, deterministic function of its
input: any two invocations on the same input sequence yield the same
verdict. -/
theorem run_deterministic (input : List Char) (v1 v2 : Bool)
    (h1 : v1 = accepts_input input) (h2 : v2 = accepts_input input) :
    v1 = v2 :=
  h1.trans h2.symm

theorem run_deterministic_witness :
    accepts_input ['a', '!'] = accepts_input ['a', '!'] :=
  run_deterministic ['a', '!'] (accepts_input ['a', '!'])
    (accepts_input ['a', '!']) rfl rfl

/-- C10: the trace of a well-formed input of length n is a finite list of
exactly n + 1 configurations, starting with the initial configuration
(state q0, full input, stack holding just the bottom marker) and
containing one configuration per consumed character, every transition
consuming exactly one character. -/
theorem trace_is_finite_stepwise (s : List Char) (h : validSentence s) :
    (traceList (s ++ ['!'])).1.length = (s ++ ['!']).length + 1 ∧
    (traceList (s ++ ['!'])).1.head?
      = some ⟨initial_state, s ++ ['!'], [initial_stack_symbol]⟩ := by
  constructor
  · simp only [traceList, List.length_cons]
    rw [show [initial_stack_symbol] = encode 0 from encode_zero.symm,
      show initial_state = stOf false from rfl]
    rw [traceAux_length s h 0 false]
    simp
  · rfl

theorem trace_is_finite_stepwise_witness :
    (traceList ([' '] ++ ['!'])).1.length = ([' '] ++ ['!']).length + 1 ∧
    (traceList ([' '] ++ ['!'])).1.head?
      = some ⟨initial_state, [' '] ++ ['!'], [initial_stack_symbol]⟩ :=
  trace_is_finite_stepwise [' '] (by decide)

end VcBalanced
